import Mathlib

/-
Verification of the `las-rs` core: the coordinate `Transform` (src/transform.rs)
and the fixed-width LAS string codec (src/utils.rs).

The Rust code computes with IEEE-754 binary64 (`f64`).  We embed `f64` as an
explicit model `Fp`: NaN, signed infinities, and finite values given by a sign,
a binary exponent and a natural mantissa (value = ±(m · 2^e)).  Arithmetic
(`mul`, `add`, `sub`, `div`) is the exact rational result rounded to the
binary64 grid with round-to-nearest, ties-to-even, overflowing to infinity, as
IEEE-754 prescribes; `f64::round`/`ceil`/`floor` and comparisons follow the
IEEE semantics Rust exposes (comparisons with NaN are false, `as i32` is the
saturating cast).  Byte buffers and Rust strings are `List Nat` of byte values;
`str::from_utf8` is modelled by the standard UTF-8 validation automaton and
`String::from_utf8_lossy` by the same automaton emitting U+FFFD byte triples
for each maximal invalid subpart.
-/

namespace LasRs

/-- Model of an IEEE-754 binary64 value: NaN, a signed infinity, or a finite
value `±(m · 2^e)` given by a sign (`true` = negative), a binary exponent and
a mantissa.  The representation is not forced to be canonical; the arithmetic
below only produces values on the binary64 grid. -/
inductive Fp where
  | nan : Fp
  | inf : Bool → Fp
  | finite : Bool → Int → Nat → Fp
deriving DecidableEq, Repr

/-- Fuel-driven base-2 logarithm on `Nat` (structural recursion, so that the
kernel can evaluate it): `natLog2Aux fuel n = ⌊log2 n⌋` whenever
`fuel ≥ ⌊log2 n⌋` and `n ≥ 1`. -/
def natLog2Aux : Nat → Nat → Nat
  | 0, _ => 0
  | fuel + 1, n => if n < 2 then 0 else natLog2Aux fuel (n / 2) + 1

/-- Base-2 logarithm: `natLog2 n = ⌊log2 n⌋` for `n ≥ 1` (and `0` at `0`). -/
def natLog2 (n : Nat) : Nat := natLog2Aux n n

/-- Round the rational `p / q` (with `q > 0`) to the nearest natural number,
ties going to the even neighbour. -/
def rnEven (p q : Nat) : Nat :=
  let d := p / q
  let r := p % q
  if q < 2 * r then d + 1
  else if 2 * r < q then d
  else if d % 2 = 0 then d else d + 1

/-- Exact comparison `(p / q) · 2^s ≥ 2^e` on nonnegative dyadic rationals,
performed with shifted natural numbers. -/
def dyGe (p q : Nat) (s e : Int) : Bool :=
  if e ≤ s then decide (q ≤ p <<< (s - e).toNat)
  else decide (q <<< (e - s).toNat ≤ p)

/-- Exact comparison `m1 · 2^e1 < m2 · 2^e2` on nonnegative dyadic rationals. -/
def dyLt (e1 : Int) (m1 : Nat) (e2 : Int) (m2 : Nat) : Bool :=
  decide (m1 <<< (e1 - min e1 e2).toNat < m2 <<< (e2 - min e1 e2).toNat)

/-- Exact equality `m1 · 2^e1 = m2 · 2^e2` on nonnegative dyadic rationals. -/
def dyEq (e1 : Int) (m1 : Nat) (e2 : Int) (m2 : Nat) : Bool :=
  decide (m1 <<< (e1 - min e1 e2).toNat = m2 <<< (e2 - min e1 e2).toNat)

/-- Round the positive rational `(p / q) · 2^s` (with `q > 0`) to the binary64
grid, round-to-nearest ties-to-even, with the given result sign: the grid step
is `2^(E - 52)` for `E = ⌊log2 x⌋ ≥ -1022` (normal range) and `2^(-1074)`
below it (subnormal range); results of magnitude `≥ 2^1024` after rounding
overflow to infinity.  `p = 0` yields a zero of the given sign. -/
def roundFinite (sign : Bool) (p q : Nat) (s : Int) : Fp :=
  if p = 0 then .finite sign 0 0
  else
    let e0 : Int := (natLog2 p : Int) - (natLog2 q : Int) + s
    let e : Int := if dyGe p q s e0 then e0 else e0 - 1
    let t : Int := max (e - 52) (-1074)
    let k : Nat := if t ≤ s then rnEven (p <<< (s - t).toNat) q else rnEven p (q <<< (t - s).toNat)
    if dyGe k 1 t 1024 then .inf sign else .finite sign t k

/-- IEEE-754 negation (sign flip; the negation of NaN stays NaN). -/
def Fp.neg : Fp → Fp
  | .nan => .nan
  | .inf s => .inf (!s)
  | .finite s e m => .finite (!s) e m

/-- IEEE-754 binary64 multiplication: NaN propagates, `inf · 0 = NaN`,
infinities multiply by sign, and finite products are rounded exactly. -/
def Fp.mul : Fp → Fp → Fp
  | .nan, _ => .nan
  | _, .nan => .nan
  | .inf s1, .inf s2 => .inf (xor s1 s2)
  | .inf s1, .finite s2 _ m2 => if m2 = 0 then .nan else .inf (xor s1 s2)
  | .finite s1 _ m1, .inf s2 => if m1 = 0 then .nan else .inf (xor s1 s2)
  | .finite s1 e1 m1, .finite s2 e2 m2 => roundFinite (xor s1 s2) (m1 * m2) 1 (e1 + e2)

/-- IEEE-754 binary64 addition: NaN propagates, opposite infinities give NaN,
and finite sums are computed exactly as signed dyadics and rounded once.  An
exactly zero sum is `+0` unless both addends are negative (zeros), matching
the round-to-nearest rule for the sign of an exact zero result. -/
def Fp.add : Fp → Fp → Fp
  | .nan, _ => .nan
  | _, .nan => .nan
  | .inf s1, .inf s2 => if s1 = s2 then .inf s1 else .nan
  | .inf s1, .finite _ _ _ => .inf s1
  | .finite _ _ _, .inf s2 => .inf s2
  | .finite s1 e1 m1, .finite s2 e2 m2 =>
    let emin : Int := min e1 e2
    let a : Int := (if s1 then -(m1 : Int) else (m1 : Int)) * ((2 : Int) ^ (e1 - emin).toNat)
    let b : Int := (if s2 then -(m2 : Int) else (m2 : Int)) * ((2 : Int) ^ (e2 - emin).toNat)
    let sum : Int := a + b
    if sum = 0 then .finite (s1 && s2) 0 0
    else roundFinite (decide (sum < 0)) sum.natAbs 1 emin

/-- IEEE-754 binary64 subtraction, `x - y = x + (-y)`. -/
def Fp.sub (x y : Fp) : Fp := x.add y.neg

/-- IEEE-754 binary64 division: NaN propagates, `inf / inf = NaN`,
`finite / inf = ±0`, `0 / 0 = NaN`, `x / 0 = ±inf` for `x ≠ 0`, and finite
quotients are rounded exactly. -/
def Fp.div : Fp → Fp → Fp
  | .nan, _ => .nan
  | _, .nan => .nan
  | .inf _, .inf _ => .nan
  | .inf s1, .finite s2 _ _ => .inf (xor s1 s2)
  | .finite s1 _ _, .inf s2 => .finite (xor s1 s2) 0 0
  | .finite s1 e1 m1, .finite s2 e2 m2 =>
    if m2 = 0 then (if m1 = 0 then .nan else .inf (xor s1 s2))
    else if m1 = 0 then .finite (xor s1 s2) 0 0
    else roundFinite (xor s1 s2) m1 m2 (e1 - e2)

/-- Model of Rust `f64::round`: round to the nearest integer, ties away from
zero; NaN and infinities are returned unchanged. -/
def Fp.roundTA : Fp → Fp
  | .nan => .nan
  | .inf s => .inf s
  | .finite s e m =>
    if 0 ≤ e then .finite s e m
    else
      let d := (-e).toNat
      let q := m >>> d
      let r := m % 2 ^ d
      .finite s 0 (if 2 ^ d ≤ 2 * r then q + 1 else q)

/-- Model of Rust `f64::ceil`: round toward positive infinity. -/
def Fp.ceilF : Fp → Fp
  | .nan => .nan
  | .inf s => .inf s
  | .finite s e m =>
    if 0 ≤ e then .finite s e m
    else
      let d := (-e).toNat
      let q := m >>> d
      let r := m % 2 ^ d
      .finite s 0 (if s then q else if r = 0 then q else q + 1)

/-- Model of Rust `f64::floor`: round toward negative infinity. -/
def Fp.floorF : Fp → Fp
  | .nan => .nan
  | .inf s => .inf s
  | .finite s e m =>
    if 0 ≤ e then .finite s e m
    else
      let d := (-e).toNat
      let q := m >>> d
      let r := m % 2 ^ d
      .finite s 0 (if s then (if r = 0 then q else q + 1) else q)

/-- IEEE-754 `<` as Rust's `PartialOrd` on `f64` exposes it: any comparison
with NaN is false, `-inf` is below and `+inf` above every finite value, and
finite values compare by signed magnitude with `-0 = +0`. -/
def Fp.ltB : Fp → Fp → Bool
  | .nan, _ => false
  | _, .nan => false
  | .inf s1, .inf s2 => s1 && !s2
  | .inf s1, .finite _ _ _ => s1
  | .finite _ _ _, .inf s2 => !s2
  | .finite s1 e1 m1, .finite s2 e2 m2 =>
    match s1, s2 with
    | false, false => dyLt e1 m1 e2 m2
    | true, true => dyLt e2 m2 e1 m1
    | true, false => decide (m1 ≠ 0) || decide (m2 ≠ 0)
    | false, true => false

/-- IEEE-754 equality test: false on NaN, `-0 = +0`, otherwise structural on
the represented value. -/
def Fp.eqB : Fp → Fp → Bool
  | .nan, _ => false
  | _, .nan => false
  | .inf s1, .inf s2 => s1 == s2
  | .inf _, .finite _ _ _ => false
  | .finite _ _ _, .inf _ => false
  | .finite s1 e1 m1, .finite s2 e2 m2 =>
    (decide (m1 = 0) && decide (m2 = 0)) || (s1 == s2 && dyEq e1 m1 e2 m2)

/-- IEEE-754 `≤`: false whenever NaN is involved. -/
def Fp.leB (x y : Fp) : Bool := Fp.ltB x y || Fp.eqB x y

/-- Exact conversion of a 32-bit integer to binary64, the model of
`f64::from(n : i32)` (every `i32` is exactly representable). -/
def Fp.ofInt (n : Int) : Fp := .finite (decide (n < 0)) 0 n.natAbs

/-- Model of Rust's saturating `as i32` cast on `f64`: NaN casts to `0`,
infinities and out-of-range values clamp to `i32::MIN`/`i32::MAX`, in-range
values truncate toward zero. -/
def Fp.castI32 : Fp → Int
  | .nan => 0
  | .inf s => if s then -2147483648 else 2147483647
  | .finite s e m =>
    let mag : Nat := if 0 ≤ e then m <<< e.toNat else m >>> (-e).toNat
    let v : Int := if s then -(mag : Int) else (mag : Int)
    max (-2147483648) (min 2147483647 v)

/-- The rational value of a finite `Fp` (0 for NaN and infinities, which are
always handled separately). -/
def Fp.val : Fp → ℚ
  | .finite false e m => (m : ℚ) * (2 : ℚ) ^ e
  | .finite true e m => -((m : ℚ) * (2 : ℚ) ^ e)
  | _ => 0

/-- Whether an `Fp` is the NaN value. -/
def Fp.isNan : Fp → Bool
  | .nan => true
  | _ => false

/-- Whether an `Fp` is a (positive or negative) zero. -/
def Fp.isZero : Fp → Bool
  | .finite _ _ 0 => true
  | _ => false

/-- The `Transform` struct of src/transform.rs: a scale and an offset, both
`f64`. -/
structure Transform where
  scale : Fp
  offset : Fp
deriving DecidableEq, Repr

/-- The `RoundingMode` enum of src/transform.rs. -/
inductive RoundingMode where
  | round : RoundingMode
  | ceil : RoundingMode
  | floor : RoundingMode
deriving DecidableEq, Repr

/-- Modelled from the spec: the crate-level `Error` enum (its definition is in
the crate root, outside the given sources) with the variants the spec lists —
`InvalidInverseTransform { computed_value, transform }`, `NotZeroFilled(bytes)`,
`NotAscii(text)` and `StringTooLong { text, capacity }` — plus a variant for
the `std::str::Utf8Error` that `as_las_str` visibly propagates with `?` in
src/utils.rs. -/
inductive Error where
  | invalidInverseTransform : Fp → Transform → Error
  | notZeroFilled : List Nat → Error
  | notAscii : List Nat → Error
  | stringTooLong : List Nat → Nat → Error
  | utf8 : Error
deriving DecidableEq, Repr

/-- The value `f64::from(i32::MAX)` used in the range check. -/
def fMax : Fp := Fp.ofInt 2147483647

/-- The value `f64::from(i32::MIN)` used in the range check. -/
def fMin : Fp := Fp.ofInt (-2147483648)

/-- `Transform::direct`: `self.scale * f64::from(n) + self.offset`. -/
def Transform.direct (t : Transform) (n : Int) : Fp :=
  (t.scale.mul (Fp.ofInt n)).add t.offset

/-- The local `round` helper of `Transform::inverse_with_rounding_mode`,
dispatching on the rounding mode. -/
def roundWith (x : Fp) : RoundingMode → Fp
  | .round => x.roundTA
  | .ceil => x.ceilF
  | .floor => x.floorF

/-- `Transform::inverse_with_rounding_mode`: round `(n - offset) / scale` with
the given mode, fail with `InvalidInverseTransform` if the result compares
greater than `f64::from(i32::MAX)` or less than `f64::from(i32::MIN)`, and
otherwise return the `as i32` cast. -/
def Transform.inverse_with_rounding_mode (t : Transform) (n : Fp) (r : RoundingMode) :
    Except Error Int :=
  let n := roundWith ((n.sub t.offset).div t.scale) r
  if Fp.ltB fMax n || Fp.ltB n fMin then
    .error (.invalidInverseTransform n t)
  else
    .ok (Fp.castI32 n)

/-- `Transform::inverse`: `inverse_with_rounding_mode` with `RoundingMode::Round`. -/
def Transform.inverse (t : Transform) (n : Fp) : Except Error Int :=
  t.inverse_with_rounding_mode n .round

/-- Model of `std::iter::Iterator::position(|c| *c == 0)` on a byte slice:
the index of the first zero byte, if any. -/
def position0 : List Nat → Option Nat
  | [] => none
  | c :: rest => if c = 0 then some 0 else (position0 rest).map (· + 1)

/-- Whether a byte is a UTF-8 continuation byte (`0x80..=0xBF`). -/
def isCont (b : Nat) : Bool := decide (0x80 ≤ b) && decide (b ≤ 0xBF)

/-- The admissible second byte after a three-byte UTF-8 leader `b0`
(`0xE0` excludes overlong forms, `0xED` excludes surrogates). -/
def cont3 (b0 b1 : Nat) : Bool :=
  if b0 = 0xE0 then decide (0xA0 ≤ b1) && decide (b1 ≤ 0xBF)
  else if b0 = 0xED then decide (0x80 ≤ b1) && decide (b1 ≤ 0x9F)
  else isCont b1

/-- The admissible second byte after a four-byte UTF-8 leader `b0`
(`0xF0` excludes overlong forms, `0xF4` caps at U+10FFFF). -/
def cont4 (b0 b1 : Nat) : Bool :=
  if b0 = 0xF0 then decide (0x90 ≤ b1) && decide (b1 ≤ 0xBF)
  else if b0 = 0xF4 then decide (0x80 ≤ b1) && decide (b1 ≤ 0x8F)
  else isCont b1

/-- One step of UTF-8 validation: given the leading byte `b0` and the bytes
after it, return the bytes after one complete valid character, or `none` when
`b0` does not begin a valid character there (overlong encodings, surrogates
and code points above U+10FFFF are invalid). -/
def utf8Tail (b0 : Nat) (rest : List Nat) : Option (List Nat) :=
  if b0 ≤ 0x7F then some rest
  else if decide (0xC2 ≤ b0) && decide (b0 ≤ 0xDF) then
    match rest with
    | b1 :: rest2 => if isCont b1 then some rest2 else none
    | [] => none
  else if decide (0xE0 ≤ b0) && decide (b0 ≤ 0xEF) then
    match rest with
    | b1 :: b2 :: rest3 => if cont3 b0 b1 && isCont b2 then some rest3 else none
    | _ => none
  else if decide (0xF0 ≤ b0) && decide (b0 ≤ 0xF4) then
    match rest with
    | b1 :: b2 :: b3 :: rest4 =>
      if cont4 b0 b1 && isCont b2 && isCont b3 then some rest4 else none
    | _ => none
  else none

/-- Fuel-driven worker of the `str::from_utf8` validity check (structural
recursion, so that the kernel can evaluate it).  Each step consumes at least
one byte, so any fuel of at least the list's length is exact. -/
def validUtf8Aux : Nat → List Nat → Bool
  | _, [] => true
  | 0, _ :: _ => false
  | fuel + 1, b0 :: rest =>
    match utf8Tail b0 rest with
    | some rest2 => validUtf8Aux fuel rest2
    | none => false

/-- Model of the `str::from_utf8` validity check: standard UTF-8 validation,
rejecting overlong encodings, surrogates, and code points above U+10FFFF. -/
def validUtf8 (l : List Nat) : Bool := validUtf8Aux l.length l

/-- The UTF-8 encoding of U+FFFD, the replacement character. -/
def fffd : List Nat := [0xEF, 0xBF, 0xBD]

/-- Fuel-driven worker for the byte-level model of `String::from_utf8_lossy`
(structural recursion on the fuel, so that the kernel can evaluate it): valid
UTF-8 sequences are copied through and each maximal valid prefix of an invalid
or truncated sequence (at least one byte) is replaced by U+FFFD, following the
substitution-of-maximal-subparts policy Rust implements.  Every step consumes
at least one byte, so any fuel of at least the list's length is exact. -/
def utf8LossyAux : Nat → List Nat → List Nat
  | 0, _ => []
  | fuel + 1, l =>
    match l with
    | [] => []
    | b0 :: rest =>
      if b0 ≤ 0x7F then b0 :: utf8LossyAux fuel rest
      else if decide (0xC2 ≤ b0) && decide (b0 ≤ 0xDF) then
        match rest with
        | [] => fffd
        | b1 :: rest2 =>
          if isCont b1 then b0 :: b1 :: utf8LossyAux fuel rest2
          else fffd ++ utf8LossyAux fuel rest
      else if decide (0xE0 ≤ b0) && decide (b0 ≤ 0xEF) then
        match rest with
        | [] => fffd
        | b1 :: rest2 =>
          if cont3 b0 b1 then
            match rest2 with
            | [] => fffd
            | b2 :: rest3 =>
              if isCont b2 then b0 :: b1 :: b2 :: utf8LossyAux fuel rest3
              else fffd ++ utf8LossyAux fuel rest2
          else fffd ++ utf8LossyAux fuel rest
      else if decide (0xF0 ≤ b0) && decide (b0 ≤ 0xF4) then
        match rest with
        | [] => fffd
        | b1 :: rest2 =>
          if cont4 b0 b1 then
            match rest2 with
            | [] => fffd
            | b2 :: rest3 =>
              if isCont b2 then
                match rest3 with
                | [] => fffd
                | b3 :: rest4 =>
                  if isCont b3 then b0 :: b1 :: b2 :: b3 :: utf8LossyAux fuel rest4
                  else fffd ++ utf8LossyAux fuel rest3
              else fffd ++ utf8LossyAux fuel rest2
          else fffd ++ utf8LossyAux fuel rest
      else fffd ++ utf8LossyAux fuel rest

/-- Model of `String::from_utf8_lossy` at the byte level. -/
def utf8Lossy (l : List Nat) : List Nat := utf8LossyAux l.length l

/-- `AsLasStr::as_las_str` of src/utils.rs on a byte buffer.  A Rust `&str` is
its UTF-8 byte content, so the result string is a byte list; `s.is_ascii()` is
`all (· ≤ 0x7F)` on those bytes. -/
def as_las_str (self : List Nat) : Except Error (List Nat) :=
  let sres : Except Error (List Nat) :=
    match position0 self with
    | some position =>
      if (self.drop position).any (fun c => decide (c ≠ 0)) then
        .error (.notZeroFilled self)
      else if validUtf8 (self.take position) then .ok (self.take position)
      else .error .utf8
    | none =>
      if validUtf8 self then .ok self else .error .utf8
  match sres with
  | .error e => .error e
  | .ok s => if s.all (fun c => decide (c ≤ 0x7F)) then .ok s else .error (.notAscii s)

/-- `AsLasStr::as_las_string_lossy` of src/utils.rs: return the strict decode
when it succeeds, and otherwise `String::from_utf8_lossy` of the bytes before
the first zero byte (all of them when there is none). -/
def as_las_string_lossy (self : List Nat) : List Nat :=
  match as_las_str self with
  | .ok s => s
  | .error _ =>
    let len := (position0 self).getD self.length
    utf8Lossy (self.take len)

/-- `FromLasStr::from_las_str` of src/utils.rs, with the in-place mutation of
the byte slice made explicit: the result is the `Result<(), Error>` paired
with the buffer's final contents.  The length check precedes any write, and
the copy loop zips the buffer with the string's bytes, overwriting exactly the
leading `s.len()` positions. -/
def from_las_str (self : List Nat) (s : List Nat) : Except Error Unit × List Nat :=
  if self.length < s.length then
    (.error (.stringTooLong s self.length), self)
  else
    (.ok (), s ++ self.drop s.length)

/-- Whether an `Except` result is an error (`Result::is_err`). -/
def isErr {A : Type} (r : Except Error A) : Bool :=
  match r with
  | .error _ => true
  | .ok _ => false

instance {E A : Type} [DecidableEq E] [DecidableEq A] : DecidableEq (Except E A)
  | .ok a, .ok b => decidable_of_iff (a = b) (by simp)
  | .ok _, .error _ => isFalse (by simp)
  | .error _, .ok _ => isFalse (by simp)
  | .error e, .error f => decidable_of_iff (e = f) (by simp)

/-- The candidate text of a buffer, in the spec's sense: the bytes strictly
before the first zero byte, or the whole buffer when it has no zero byte. -/
def candidate (b : List Nat) : List Nat := b.takeWhile (fun c => decide (c ≠ 0))

/-- The computed value of `inverse` lies outside the `i32` range: true of both
infinities and of finite values beyond `i32::MIN`/`i32::MAX`, false of NaN
(every comparison with NaN is false, so NaN passes the source's range check). -/
def rangeOutside : Fp → Prop
  | .nan => False
  | .inf _ => True
  | .finite s e m =>
    Fp.val (.finite s e m) < -2147483648 ∨ 2147483647 < Fp.val (.finite s e m)

/-- Whether an `Fp` is a finite value. -/
def Fp.isFiniteB : Fp → Bool
  | .finite _ _ _ => true
  | _ => false

/- ### Helper lemmas about the first-zero position -/

theorem position0_none_candidate {b : List Nat} (h : position0 b = none) :
    candidate b = b := by
  induction b with
  | nil => rfl
  | cons c t ih =>
    by_cases hc : c = 0
    · simp [position0, hc] at h
    · simp only [position0, if_neg hc, Option.map_eq_none'] at h
      simp [candidate, List.takeWhile_cons, hc]
      simpa [candidate] using ih h

theorem position0_some_candidate {b : List Nat} {p : Nat} (h : position0 b = some p) :
    b.take p = candidate b ∧ (candidate b).length = p := by
  induction b generalizing p with
  | nil => simp [position0] at h
  | cons c t ih =>
    by_cases hc : c = 0
    · simp only [position0, if_pos hc, Option.some.injEq] at h
      subst h
      simp [candidate, List.takeWhile_cons, hc]
    · simp only [position0, if_neg hc, Option.map_eq_some'] at h
      obtain ⟨p', hp', rfl⟩ := h
      obtain ⟨h1, h2⟩ := ih hp'
      constructor
      · simpa [candidate, List.takeWhile_cons, hc] using h1
      · simpa [candidate, List.takeWhile_cons, hc] using h2

theorem take_position0_candidate (b : List Nat) :
    b.take ((position0 b).getD b.length) = candidate b := by
  cases h : position0 b with
  | none => simpa [position0_none_candidate h] using List.take_length (l := b)
  | some p => simpa using (position0_some_candidate h).1

/- ### The canonical form of `as_las_str` -/

theorem as_las_str_eq (b : List Nat) :
    as_las_str b =
      if (b.drop (candidate b).length).any (fun c => decide (c ≠ 0)) then
        .error (.notZeroFilled b)
      else if validUtf8 (candidate b) then
        if (candidate b).all (fun c => decide (c ≤ 0x7F)) then .ok (candidate b)
        else .error (.notAscii (candidate b))
      else .error .utf8 := by
  unfold as_las_str
  cases h : position0 b with
  | none =>
    have hc : candidate b = b := position0_none_candidate h
    dsimp only
    rw [hc, List.drop_length]
    by_cases hv : validUtf8 b = true
    · by_cases ha : (b.all fun c => decide (c ≤ 127)) = true
      · rw [if_pos hv, if_pos hv, if_neg (by simp), if_pos ha]
        exact if_pos ha
      · rw [if_pos hv, if_pos hv, if_neg (by simp), if_neg ha]
        exact if_neg ha
    · rw [if_neg hv, if_neg (by simp), if_neg hv]
  | some p =>
    obtain ⟨ht, hl⟩ := position0_some_candidate h
    dsimp only
    rw [hl, ← ht]
    by_cases hz : ((b.drop p).any fun c => decide (c ≠ 0)) = true
    · rw [if_pos hz, if_pos hz]
    · by_cases hv : validUtf8 (b.take p) = true
      · by_cases ha : ((b.take p).all fun c => decide (c ≤ 127)) = true
        · rw [if_neg hz, if_neg hz, if_pos hv, if_pos hv, if_pos ha]
          exact if_pos ha
        · rw [if_neg hz, if_neg hz, if_pos hv, if_pos hv, if_neg ha]
          exact if_neg ha
      · rw [if_neg hz, if_neg hz, if_neg hv, if_neg hv]

/- ### Claims C3, C8, C10: the encode direction -/

/-- C3: `encode(s, b)` fails with `StringTooLong` carrying `s` and the
capacity `b.len()` if and only if `s.len() > b.len()`; otherwise it succeeds
and the leading `s.len()` bytes of the buffer equal the bytes of `s`. -/
theorem c3_encode_length_check (s b : List Nat) :
    (b.length < s.length →
      from_las_str b s = (.error (.stringTooLong s b.length), b)) ∧
    (s.length ≤ b.length →
      (from_las_str b s).1 = .ok () ∧ (from_las_str b s).2.take s.length = s) := by
  constructor
  · intro h
    rw [from_las_str, if_pos h]
  · intro h
    rw [from_las_str, if_neg (by omega)]
    exact ⟨rfl, List.take_left s (b.drop s.length)⟩

theorem c3_encode_length_check_witness :
    from_las_str [0, 0, 0, 0, 0] [66, 101, 101, 114, 33, 33] =
      (.error (.stringTooLong [66, 101, 101, 114, 33, 33] 5), [0, 0, 0, 0, 0]) :=
  (c3_encode_length_check [66, 101, 101, 114, 33, 33] [0, 0, 0, 0, 0]).1 (by decide)

/-- C8: after a successful `encode(s, b)` every byte of the buffer at
positions `s.len()` and beyond holds exactly the value it held before the
call: encode neither clears nor zero-pads the trailing bytes. -/
theorem c8_frame (s b : List Nat) (h : s.length ≤ b.length) :
    (from_las_str b s).1 = .ok () ∧
    (from_las_str b s).2.drop s.length = b.drop s.length := by
  rw [from_las_str, if_neg (by omega)]
  exact ⟨rfl, List.drop_left s (b.drop s.length)⟩

theorem c8_frame_witness :
    (from_las_str [9, 9, 9, 9, 9] [66, 101]).1 = .ok () ∧
    (from_las_str [9, 9, 9, 9, 9] [66, 101]).2.drop 2 = [9, 9, 9] := by
  have h := c8_frame [66, 101] [9, 9, 9, 9, 9] (by decide)
  exact ⟨h.1, by rw [show ([66, 101] : List Nat).length = 2 from rfl] at h; rw [h.2]; rfl⟩

/-- C10: when `s.len() > b.len()`, `encode(s, b)` returns the `StringTooLong`
error and leaves every byte of the buffer unchanged — the length check comes
before any write, so no partial prefix is written. -/
theorem c10_error_leaves_buffer (s b : List Nat) (h : b.length < s.length) :
    from_las_str b s = (.error (.stringTooLong s b.length), b) := by
  rw [from_las_str, if_pos h]

theorem c10_error_leaves_buffer_witness :
    from_las_str [7, 8, 9] [66, 101, 101, 114, 33] =
      (.error (.stringTooLong [66, 101, 101, 114, 33] 3), [7, 8, 9]) :=
  c10_error_leaves_buffer [66, 101, 101, 114, 33] [7, 8, 9] (by decide)

/- ### Claim C4: the lossy decode -/

/-- C4: `decode_lossy` is a total function (the model returns a string for
every buffer), and whenever `decode_strict` fails, for any reason, it returns
the lossy UTF-8 conversion — with U+FFFD substitution for invalid sequences —
of the bytes before the first zero byte (all of the buffer when it has no
zero byte). -/
theorem c4_lossy_fallback (b : List Nat) (h : isErr (as_las_str b) = true) :
    as_las_string_lossy b = utf8Lossy (candidate b) := by
  unfold as_las_string_lossy
  cases hres : as_las_str b with
  | ok s => rw [hres] at h; simp [isErr] at h
  | error e =>
    show utf8Lossy (b.take ((position0 b).getD b.length)) = utf8Lossy (candidate b)
    rw [take_position0_candidate b]

theorem c4_lossy_fallback_witness :
    isErr (as_las_str [65, 66, 67, 0, 68]) = true ∧
    as_las_string_lossy [65, 66, 67, 0, 68] = utf8Lossy (candidate [65, 66, 67, 0, 68]) :=
  ⟨by decide, c4_lossy_fallback [65, 66, 67, 0, 68] (by decide)⟩

/- ### Helper lemmas for the decode claims -/

theorem getD_default_eq {b : List Nat} {p : Nat} (h : p < b.length) (d1 d2 : Nat) :
    b.getD p d1 = b.getD p d2 := by
  induction b generalizing p with
  | nil => simp at h
  | cons c t ih =>
    cases p with
    | zero => rfl
    | succ p' => simpa using ih (p := p') (by simpa using h)

theorem getD_drop (b : List Nat) (p j d : Nat) :
    (b.drop p).getD j d = b.getD (p + j) d := by
  induction b generalizing p with
  | nil => simp
  | cons c t ih =>
    cases p with
    | zero => simp
    | succ p' =>
      simpa [Nat.succ_add] using ih p'

theorem anyNZ_iff (l : List Nat) :
    (l.any fun c => decide (c ≠ 0)) = true ↔ ∃ j, j < l.length ∧ l.getD j 0 ≠ 0 := by
  induction l with
  | nil => simp
  | cons c t ih =>
    simp only [List.any_cons, Bool.or_eq_true, decide_eq_true_eq, ih]
    constructor
    · rintro (hc | ⟨j, hj, hx⟩)
      · exact ⟨0, by simp, by simpa using hc⟩
      · exact ⟨j + 1, by simpa using hj, by simpa using hx⟩
    · rintro ⟨j, hj, hx⟩
      cases j with
      | zero => exact Or.inl (by simpa using hx)
      | succ j' => exact Or.inr ⟨j', by simpa using hj, by simpa using hx⟩

theorem candidate_cons_of_ne {c : Nat} {t : List Nat} (hc : c ≠ 0) :
    candidate (c :: t) = c :: candidate t := by
  simp [candidate, List.takeWhile_cons, hc]

theorem candidate_cons_zero {t : List Nat} : candidate (0 :: t) = [] := by
  simp [candidate, List.takeWhile_cons]

theorem candidate_of_first_zero {b : List Nat} {p : Nat} (hlt : p < b.length)
    (hz : b.getD p 1 = 0) (hfirst : ∀ i, i < p → b.getD i 0 ≠ 0) :
    candidate b = b.take p := by
  induction b generalizing p with
  | nil => simp at hlt
  | cons c t ih =>
    cases p with
    | zero =>
      have hc : c = 0 := by simpa using hz
      subst hc
      rw [candidate_cons_zero, List.take_zero]
    | succ p' =>
      have hc : c ≠ 0 := by simpa using hfirst 0 (Nat.succ_pos _)
      have htail : candidate t = t.take p' :=
        ih (by simpa using hlt) (by simpa using hz)
          (fun i hi => by simpa using hfirst (i + 1) (by omega))
      rw [candidate_cons_of_ne hc, List.take_succ_cons, htail]

theorem candidate_of_not_mem {b : List Nat} (h : 0 ∉ b) : candidate b = b := by
  induction b with
  | nil => rfl
  | cons c t ih =>
    have hc : c ≠ 0 := fun h0 => h (h0 ▸ List.mem_cons_self c t)
    have ht : candidate t = t := ih (fun hm => h (List.mem_cons_of_mem c hm))
    rw [candidate_cons_of_ne hc, ht]

theorem candidate_append_zeros {s zs : List Nat}
    (hs : ∀ c ∈ s, c ≠ 0) (hz : ∀ c ∈ zs, c = 0) :
    candidate (s ++ zs) = s := by
  induction s with
  | nil =>
    cases zs with
    | nil => rfl
    | cons z t =>
      have hz0 : z = 0 := hz z (List.mem_cons_self z t)
      subst hz0
      exact candidate_cons_zero
  | cons c t ih =>
    have hc : c ≠ 0 := hs c (List.mem_cons_self c t)
    have ht := ih (fun x hx => hs x (List.mem_cons_of_mem c hx))
    rw [List.cons_append, candidate_cons_of_ne hc, ht]

theorem validUtf8Aux_of_ascii {fuel : Nat} {s : List Nat} (h : ∀ c ∈ s, c ≤ 0x7F)
    (hf : s.length ≤ fuel) : validUtf8Aux fuel s = true := by
  induction fuel generalizing s with
  | zero =>
    cases s with
    | nil => rfl
    | cons c t => simp at hf
  | succ f ih =>
    cases s with
    | nil => rfl
    | cons c t =>
      have hc : c ≤ 0x7F := h c (List.mem_cons_self c t)
      have hstep : utf8Tail c t = some t := by rw [utf8Tail.eq_def, if_pos hc]
      show (match utf8Tail c t with
        | some rest2 => validUtf8Aux f rest2
        | none => false) = true
      rw [hstep]
      exact ih (fun x hx => h x (List.mem_cons_of_mem c hx)) (by simpa using hf)

theorem validUtf8_of_ascii {s : List Nat} (h : ∀ c ∈ s, c ≤ 0x7F) :
    validUtf8 s = true :=
  validUtf8Aux_of_ascii h le_rfl

/- ### Claim C2: the strict decode's zero handling -/

/-- C2: `decode_strict(b)` behaves as follows.  If `b` has a zero byte with
first occurrence at `p` and some byte after `p` is non-zero, it fails with
`NotZeroFilled(b)`; if instead every byte after `p` is zero, any success
returns the candidate `b[0..p)` (so the empty string when `b` starts with a
zero); when `b` has no zero byte, any success returns all of `b`. -/
theorem c2_decode_strict_cases (b : List Nat) :
    (∀ p, p < b.length → b.getD p 1 = 0 → (∀ i, i < p → b.getD i 0 ≠ 0) →
      ((∃ j, p < j ∧ j < b.length ∧ b.getD j 0 ≠ 0) →
        as_las_str b = .error (.notZeroFilled b)) ∧
      ((∀ j, p < j → j < b.length → b.getD j 0 = 0) →
        ∀ s, as_las_str b = .ok s → s = b.take p)) ∧
    ((0 : Nat) ∉ b →
      ∀ s, as_las_str b = .ok s → s = b) := by
  constructor
  · intro p hlt hz hfirst
    have hcand : candidate b = b.take p := candidate_of_first_zero hlt hz hfirst
    have hclen : (candidate b).length = p := by
      rw [hcand, List.length_take]
      omega
    constructor
    · rintro ⟨j, hpj, hjlen, hjx⟩
      rw [as_las_str_eq b, hclen]
      have hany : ((b.drop p).any fun c => decide (c ≠ 0)) = true := by
        rw [anyNZ_iff]
        refine ⟨j - p, ?_, ?_⟩
        · rw [List.length_drop]; omega
        · rw [getD_drop]
          have : p + (j - p) = j := by omega
          rw [this]
          exact hjx
      rw [if_pos hany]
    · intro hall s hok
      have hany : ((b.drop p).any fun c => decide (c ≠ 0)) = false := by
        cases hv : (b.drop p).any fun c => decide (c ≠ 0)
        · rfl
        · exfalso
          obtain ⟨k, hk, hkx⟩ := (anyNZ_iff _).mp hv
          rw [List.length_drop] at hk
          rw [getD_drop] at hkx
          cases k with
          | zero =>
            rw [Nat.add_zero] at hkx
            exact hkx ((getD_default_eq hlt 0 1).trans hz)
          | succ k' => exact hkx (hall (p + (k' + 1)) (by omega) (by omega))
      rw [as_las_str_eq b, hclen, if_neg (by rw [hany]; exact Bool.false_ne_true)] at hok
      by_cases hv : validUtf8 (candidate b) = true
      · rw [if_pos hv] at hok
        by_cases ha : ((candidate b).all fun c => decide (c ≤ 127)) = true
        · rw [if_pos ha] at hok
          cases hok
          exact hcand
        · rw [if_neg ha] at hok
          cases hok
      · rw [if_neg hv] at hok
        cases hok
  · intro hnz s hok
    have hcand : candidate b = b := candidate_of_not_mem hnz
    rw [as_las_str_eq b, hcand, List.drop_length] at hok
    simp only [List.any_nil, Bool.false_eq_true, if_false] at hok
    by_cases hv : validUtf8 b = true
    · rw [if_pos hv] at hok
      by_cases ha : (b.all fun c => decide (c ≤ 127)) = true
      · rw [if_pos ha] at hok
        cases hok
        rfl
      · rw [if_neg ha] at hok
        cases hok
    · rw [if_neg hv] at hok
      cases hok

theorem c2_decode_strict_cases_witness :
    as_las_str [60, 0, 60] = .error (.notZeroFilled [60, 0, 60]) :=
  ((c2_decode_strict_cases [60, 0, 60]).1 1 (by decide) (by decide)
    (by intro i hi; interval_cases i <;> decide)).1
    ⟨2, by decide, by decide, by decide⟩

/- ### Claim C5 (corrected): the not-ASCII failure -/

/-- C5 counterexample: the buffer `[0xFF]` has valid zero padding (it has no
zero byte at all) and its candidate text `[0xFF]` is not 7-bit ASCII, so the
claim as stated predicts the failure `NotAscii([0xFF])`; but `0xFF` is not
valid UTF-8, so `str::from_utf8` fails first and `decode_strict` returns the
propagated UTF-8 error, not `NotAscii`. -/
theorem c5_invalid_utf8_counterexample :
    as_las_str [255] = .error .utf8 ∧
    (.error .utf8 : Except Error (List Nat)) ≠ .error (.notAscii [255]) := by
  constructor
  · decide
  · decide

/-- C5 (amended): for every buffer with valid zero padding whose candidate
text is not entirely 7-bit ASCII, `decode_strict` fails; the error is
`NotAscii` carrying the candidate text when the candidate is valid UTF-8, and
the propagated UTF-8 decoding error otherwise. -/
theorem c5_not_ascii_error (b : List Nat)
    (hpad : ((b.drop (candidate b).length).all fun c => decide (c = 0)) = true)
    (hna : ((candidate b).all fun c => decide (c ≤ 0x7F)) = false) :
    as_las_str b =
      if validUtf8 (candidate b) then .error (.notAscii (candidate b))
      else .error .utf8 := by
  rw [as_las_str_eq b]
  have hany : ((b.drop (candidate b).length).any fun c => decide (c ≠ 0)) = false := by
    simp only [List.all_eq_true, decide_eq_true_eq] at hpad
    cases hv : (b.drop (candidate b).length).any fun c => decide (c ≠ 0)
    · rfl
    · exfalso
      rw [List.any_eq_true] at hv
      obtain ⟨x, hx, hxnz⟩ := hv
      simp only [decide_eq_true_eq] at hxnz
      exact hxnz (hpad x hx)
  rw [if_neg (by rw [hany]; exact Bool.false_ne_true)]
  by_cases hv : validUtf8 (candidate b) = true
  · rw [if_pos hv, if_pos hv, if_neg (by rw [hna]; exact Bool.false_ne_true)]
  · rw [if_neg hv, if_neg hv]

theorem c5_not_ascii_error_witness :
    (((([240, 159, 141, 186] : List Nat).drop
        (candidate [240, 159, 141, 186]).length).all fun c => decide (c = 0)) = true) ∧
    (((candidate [240, 159, 141, 186]).all fun c => decide (c ≤ 0x7F)) = false) ∧
    as_las_str [240, 159, 141, 186] = .error (.notAscii [240, 159, 141, 186]) :=
  ⟨by decide, by decide,
    (c5_not_ascii_error [240, 159, 141, 186] (by decide) (by decide)).trans (by decide)⟩

/- ### Claim C7: the encode/decode round trip -/

/-- C7: for every string of non-zero 7-bit ASCII bytes and every all-zero
buffer at least as long, `encode` succeeds and a subsequent `decode_strict`
of the buffer returns the original string. -/
theorem c7_roundtrip (s b : List Nat)
    (hs : ∀ c ∈ s, c ≠ 0 ∧ c ≤ 0x7F)
    (hb : ∀ c ∈ b, c = 0)
    (hlen : s.length ≤ b.length) :
    (from_las_str b s).1 = .ok () ∧ as_las_str (from_las_str b s).2 = .ok s := by
  have hres : from_las_str b s = (.ok (), s ++ b.drop s.length) := by
    rw [from_las_str, if_neg (by omega)]
  rw [hres]
  refine ⟨rfl, ?_⟩
  have hzs : ∀ c ∈ b.drop s.length, c = 0 := fun c hc => hb c (List.mem_of_mem_drop hc)
  have hcand : candidate (s ++ b.drop s.length) = s :=
    candidate_append_zeros (fun c hc => (hs c hc).1) hzs
  rw [as_las_str_eq, hcand]
  have hdrop : (s ++ b.drop s.length).drop s.length = b.drop s.length :=
    List.drop_left s (b.drop s.length)
  rw [hdrop]
  have hany : ((b.drop s.length).any fun c => decide (c ≠ 0)) = false := by
    cases hv : (b.drop s.length).any fun c => decide (c ≠ 0)
    · rfl
    · exfalso
      rw [List.any_eq_true] at hv
      obtain ⟨x, hx, hxnz⟩ := hv
      simp only [decide_eq_true_eq] at hxnz
      exact hxnz (hzs x hx)
  rw [if_neg (by rw [hany]; exact Bool.false_ne_true),
    if_pos (validUtf8_of_ascii (fun c hc => (hs c hc).2)),
    if_pos (by simp only [List.all_eq_true, decide_eq_true_eq]; exact fun c hc => (hs c hc).2)]

theorem c7_roundtrip_witness :
    (from_las_str [0, 0, 0, 0, 0] [66, 101, 101, 114, 33]).1 = .ok () ∧
    as_las_str (from_las_str [0, 0, 0, 0, 0] [66, 101, 101, 114, 33]).2 =
      .ok [66, 101, 101, 114, 33] :=
  c7_roundtrip [66, 101, 101, 114, 33] [0, 0, 0, 0, 0]
    (by decide) (by decide) (by decide)

/- ### Helper lemmas for the transform claims -/

theorem fMax_def : fMax = Fp.finite false 0 2147483647 := by decide

theorem fMin_def : fMin = Fp.finite true 0 2147483648 := by decide

theorem dyLt_iff (e1 : Int) (m1 : Nat) (e2 : Int) (m2 : Nat) :
    dyLt e1 m1 e2 m2 = true ↔ (m1 : ℚ) * (2 : ℚ) ^ e1 < (m2 : ℚ) * (2 : ℚ) ^ e2 := by
  unfold dyLt
  rw [decide_eq_true_iff, Nat.shiftLeft_eq, Nat.shiftLeft_eq, ← Nat.cast_lt (α := ℚ)]
  push_cast
  rw [← zpow_natCast (2 : ℚ) (e1 - min e1 e2).toNat, ← zpow_natCast (2 : ℚ) (e2 - min e1 e2).toNat,
    Int.toNat_of_nonneg (by omega : (0 : Int) ≤ e1 - min e1 e2),
    Int.toNat_of_nonneg (by omega : (0 : Int) ≤ e2 - min e1 e2)]
  have key : ∀ (m : Nat) (e : Int),
      (m : ℚ) * (2 : ℚ) ^ (e - min e1 e2) = (m : ℚ) * (2 : ℚ) ^ e * ((2 : ℚ) ^ (min e1 e2))⁻¹ := by
    intro m e
    rw [zpow_sub₀ (by norm_num : (2 : ℚ) ≠ 0), div_eq_mul_inv]
    ring
  rw [key, key]
  exact mul_lt_mul_right (by positivity)

theorem errCond_iff (x : Fp) :
    (Fp.ltB fMax x || Fp.ltB x fMin) = true ↔ rangeOutside x := by
  rw [fMax_def, fMin_def]
  cases x with
  | nan => simp [Fp.ltB, rangeOutside]
  | inf s => cases s <;> simp [Fp.ltB, rangeOutside]
  | finite s e m =>
    have hpos : (0 : ℚ) ≤ (m : ℚ) * (2 : ℚ) ^ e := by positivity
    cases s with
    | false =>
      show (dyLt 0 2147483647 e m || false) = true ↔ _
      rw [Bool.or_false, dyLt_iff]
      simp only [rangeOutside, Fp.val, zpow_zero, mul_one]
      constructor
      · intro h
        exact Or.inr h
      · rintro (h | h)
        · exact absurd h (by push_cast; linarith)
        · exact h
    | true =>
      show (false || dyLt 0 2147483648 e m) = true ↔ _
      rw [Bool.false_or, dyLt_iff]
      simp only [rangeOutside, Fp.val, zpow_zero, mul_one]
      constructor
      · intro h
        refine Or.inl ?_
        push_cast at h ⊢
        linarith
      · rintro (h | h)
        · push_cast at h ⊢
          linarith
        · exact absurd h (by push_cast; linarith)

theorem roundFinite_ne_nan (sign : Bool) (p q : Nat) (s : Int) :
    roundFinite sign p q s ≠ Fp.nan := by
  unfold roundFinite
  split
  · exact fun h => Fp.noConfusion h
  · dsimp only
    split
    all_goals try split
    all_goals try split
    all_goals exact fun h => Fp.noConfusion h

/- ### Claim C1 (corrected): the inverse range check -/

/-- C1 counterexample: with the transform `{scale: 1.0, offset: 0.0}` and
`v = NaN`, the computed value `round((v - offset) / scale)` is NaN, which does
not lie in `[-2147483648.0, 2147483647.0]` (neither inclusive float-boundary
comparison holds), yet `inverse` succeeds, returning `Ok(0)` — the claim's
"fails if and only if the rounded value lies outside the range" is violated
at NaN. -/
theorem c1_nan_counterexample :
    Fp.leB fMin (Fp.roundTA ((Fp.sub Fp.nan (Fp.finite false 0 0)).div (Fp.finite false 0 1)))
      = false ∧
    Fp.leB (Fp.roundTA ((Fp.sub Fp.nan (Fp.finite false 0 0)).div (Fp.finite false 0 1))) fMax
      = false ∧
    Transform.inverse ⟨Fp.finite false 0 1, Fp.finite false 0 0⟩ Fp.nan = .ok 0 :=
  ⟨by decide, by decide, by decide⟩

/-- C1 (amended): for every transform and 64-bit float `v`, with
`n = round((v - offset) / scale)` computed under round-to-nearest
ties-away-from-zero, `inverse(v)` fails with
`InvalidInverseTransform { computed_value: n, transform }` if and only if `n`
is a non-NaN value outside `[-2147483648.0, 2147483647.0]` (both infinities
included); otherwise — including when `n` is NaN — it returns the saturating
cast of `n` to a 32-bit signed integer. -/
theorem c1_inverse_range_iff (t : Transform) (v : Fp) (n : Fp)
    (hn : n = Fp.roundTA ((v.sub t.offset).div t.scale)) :
    (t.inverse v = .error (.invalidInverseTransform n t) ↔ rangeOutside n) ∧
    (¬ rangeOutside n → t.inverse v = .ok (Fp.castI32 n)) := by
  subst hn
  unfold Transform.inverse Transform.inverse_with_rounding_mode
  dsimp only [roundWith]
  by_cases hb : (Fp.ltB fMax (Fp.roundTA ((v.sub t.offset).div t.scale)) ||
      Fp.ltB (Fp.roundTA ((v.sub t.offset).div t.scale)) fMin) = true
  · rw [if_pos hb]
    have hout := (errCond_iff _).mp hb
    exact ⟨⟨fun _ => hout, fun _ => rfl⟩, fun h => absurd hout h⟩
  · rw [if_neg hb]
    have hout : ¬ rangeOutside (Fp.roundTA ((v.sub t.offset).div t.scale)) :=
      fun h => hb ((errCond_iff _).mpr h)
    exact ⟨⟨fun h => absurd h (by simp), fun h => absurd h hout⟩, fun _ => rfl⟩

theorem c1_inverse_range_iff_witness :
    ¬ rangeOutside (Fp.finite false 0 5) ∧
    Transform.inverse ⟨Fp.finite false 0 1, Fp.finite false 0 0⟩ (Fp.finite false 0 5) =
      .ok 5 := by
  have hn : Fp.finite false 0 5 =
      Fp.roundTA ((Fp.sub (Fp.finite false 0 5) (Fp.finite false 0 0)).div
        (Fp.finite false 0 1)) := by decide
  have hout : ¬ rangeOutside (Fp.finite false 0 5) := by
    simp only [rangeOutside, Fp.val, zpow_zero, mul_one]
    push_cast
    intro h
    rcases h with h | h <;> linarith
  refine ⟨hout, ?_⟩
  have h := (c1_inverse_range_iff ⟨Fp.finite false 0 1, Fp.finite false 0 0⟩
    (Fp.finite false 0 5) (Fp.finite false 0 5) hn).2 hout
  rw [h]
  decide

/- ### Claim C6 (corrected): zero scale -/

/-- C6 counterexample: with `scale = 0`, `offset = 0` and `v = 0`, the
intermediate `(v - offset) / scale` is `0.0 / 0.0 = NaN`, not infinity,
`round` keeps it NaN, both range comparisons are false, and `inverse`
succeeds with `Ok(0)` — contradicting the claim that `inverse` fails for
every input when `scale = 0`. -/
theorem c6_zero_scale_counterexample :
    Transform.inverse ⟨Fp.finite false 0 0, Fp.finite false 0 0⟩ (Fp.finite false 0 0) =
      .ok 0 := by decide

/-- C6 (amended): for every transform with zero scale, `inverse(v)` fails if
and only if `v - offset` is neither zero nor NaN (the division then yields an
infinity, which always fails the range check); when `v - offset` is zero or
NaN the quotient is NaN and `inverse` succeeds, returning `0`. -/
theorem c6_zero_scale_iff (s : Bool) (e : Int) (offset v : Fp) :
    isErr (Transform.inverse ⟨Fp.finite s e 0, offset⟩ v) = true ↔
      ¬ ((v.sub offset).isNan = true ∨ (v.sub offset).isZero = true) := by
  unfold Transform.inverse Transform.inverse_with_rounding_mode
  dsimp only [roundWith]
  cases hd : v.sub offset with
  | nan =>
    rw [fMax_def, fMin_def]
    simp [Fp.div, Fp.roundTA, Fp.ltB, isErr, Fp.isNan, Fp.castI32]
  | inf s1 =>
    rw [fMax_def, fMin_def]
    cases s1 <;> cases s <;>
      simp [Fp.div, Fp.roundTA, Fp.ltB, isErr, Fp.isNan, Fp.isZero]
  | finite s1 e1 m1 =>
    cases m1 with
    | zero =>
      rw [fMax_def, fMin_def]
      simp [Fp.div, Fp.roundTA, Fp.ltB, isErr, Fp.isNan, Fp.isZero, Fp.castI32]
    | succ m' =>
      rw [fMax_def, fMin_def]
      cases s1 <;> cases s <;>
        simp [Fp.div, Fp.roundTA, Fp.ltB, isErr, Fp.isNan, Fp.isZero]

/- ### Claim C9 (corrected): `direct` on finite transforms -/

/-- C9 counterexample: the transform `{scale: 2^1023, offset: 0.0}` has a
finite non-zero scale and finite offset, and `n = 2` is a 32-bit integer, yet
`direct(2) = 2^1023 * 2 + 0` overflows binary64 and is positive infinity, not
a finite float. -/
theorem c9_overflow_counterexample :
    Transform.direct ⟨Fp.finite false 971 4503599627370496, Fp.finite false 0 0⟩ 2 =
      Fp.inf false ∧
    (Transform.direct ⟨Fp.finite false 971 4503599627370496, Fp.finite false 0 0⟩ 2).isFiniteB
      = false :=
  ⟨by decide, by decide⟩

/-- C9 (amended): for every transform whose scale and offset are finite
(the scale non-zero) and every 32-bit signed integer `n`,
`direct(n) = scale * n + offset` is never NaN — it is a finite 64-bit float
or, when the product or sum overflows, an infinity. -/
theorem c9_direct_not_nan (ss so : Bool) (es eo : Int) (ms mo : Nat) (hms : ms ≠ 0)
    (n : Int) (hn : -2147483648 ≤ n ∧ n ≤ 2147483647) :
    Transform.direct ⟨Fp.finite ss es ms, Fp.finite so eo mo⟩ n ≠ Fp.nan := by
  unfold Transform.direct
  cases hx : Fp.mul (Fp.finite ss es ms) (Fp.ofInt n) with
  | nan =>
    exact absurd hx (roundFinite_ne_nan (xor ss (decide (n < 0))) (ms * n.natAbs) 1 (es + 0))
  | inf s1 =>
    intro h
    exact Fp.noConfusion h
  | finite s1 e1 m1 =>
    show Fp.add (Fp.finite s1 e1 m1) (Fp.finite so eo mo) ≠ Fp.nan
    unfold Fp.add
    dsimp only
    split
    all_goals try split
    all_goals try split
    all_goals first
      | exact fun h => Fp.noConfusion h
      | exact roundFinite_ne_nan _ _ _ _

theorem c9_direct_not_nan_witness :
    (1 : Nat) ≠ 0 ∧
    ((-2147483648 : Int) ≤ 1000 ∧ (1000 : Int) ≤ 2147483647) ∧
    Transform.direct ⟨Fp.finite false 0 1, Fp.finite false 0 0⟩ 1000 ≠ Fp.nan :=
  ⟨by decide, ⟨by decide, by decide⟩,
    c9_direct_not_nan false false 0 0 1 0 (by decide) 1000 ⟨by decide, by decide⟩⟩

end LasRs
